import Mathlib

/-!
Shallow embedding of the OnlyChords core logic (src/src/App.js): the tonal
model (`NOTES`, `getScaleChords`, `transposeChord`), the line/placement
document model (`lockLyrics`, `unlockLyrics`, placement removal via
`handleChordClick`) and the flattening/export algorithm (`flattenForExport`).

JavaScript numeric semantics are modelled explicitly: `%` on JS numbers is
the truncated remainder (`Int.tmod`), `Array.prototype.indexOf` returns -1
on a miss, an out-of-range array read yields `undefined` (which string
concatenation renders as the string "undefined"), and `Math.round x` is
`⌊x + 1/2⌋`.  Pixel quantities (placement offsets, the measured character
width) are modelled as rationals; the division by the character width is
marked `none` when the divisor is 0, since JS produces a non-finite value
there which the export cannot render as text.
-/

attribute [local semireducible] Rat.add Rat.mul Rat.inv Rat.sub

/-- App.js line 5. -/
def NOTES : List String :=
  ["C", "C#", "D", "D#", "E", "F"] ++ ["F#", "G", "G#", "A", "A#", "B"]

/-- App.js line 6. -/
def MAJOR_SCALE_INTERVALS : List Int := [0, 2, 4, 5, 7, 9, 11]

/-- App.js line 7. -/
def MINOR_SCALE_INTERVALS : List Int := [0, 2, 3, 5, 7, 8, 10]

/-- App.js line 8. -/
def MAJOR_CHORD_TYPES : List String :=
  ["major", "minor", "minor", "major", "major", "minor", "diminished"]

/-- App.js line 9. -/
def MINOR_CHORD_TYPES : List String :=
  ["minor", "diminished", "major", "minor", "minor", "major", "major"]

/-- JS `Array.prototype.indexOf`: index of the first occurrence, -1 on a miss. -/
def jsIndexOf (x : String) : List String → Int
  | [] => -1
  | y :: ys =>
    if y = x then 0
    else
      let r := jsIndexOf x ys
      if r = -1 then -1 else r + 1

/-- JS array read `NOTES[i]`: an out-of-range index yields `undefined`, which
string concatenation renders as the string "undefined". -/
def jsNoteAt (i : Int) : String :=
  if 0 ≤ i ∧ i < 12 then NOTES.getD i.toNat "undefined" else "undefined"

/-- The chord objects `{ name, type }` produced by `getScaleChords`. -/
structure ScaleChord where
  name : String
  type : String
deriving DecidableEq

/-- App.js lines 13-24 (`getScaleChords`).  The source maps over `intervals`
with the running index `i` and reads `chordTypes[i]`; since both tables have
length 7 this is `zipWith` over the two tables. -/
def getScaleChords (key scaleType : String) : List ScaleChord :=
  let rootNoteIndex := jsIndexOf key NOTES
  let intervals := if scaleType = "major" then MAJOR_SCALE_INTERVALS else MINOR_SCALE_INTERVALS
  let chordTypes := if scaleType = "major" then MAJOR_CHORD_TYPES else MINOR_CHORD_TYPES
  List.zipWith (fun interval ctype =>
      let noteIndex := (rootNoteIndex + interval).tmod 12
      let chordName := jsNoteAt noteIndex
      let chordName := if ctype = "minor" then chordName ++ "m" else chordName
      let chordName := if ctype = "diminished" then chordName ++ "dim" else chordName
      { name := chordName, type := ctype }) intervals chordTypes

/-- App.js lines 27-28: the match of the root regex `/^[A-G]#?/` against the
chord name (greedy, so a `#` right after the letter is part of the root). -/
def rootMatch : List Char → Option String
  | [] => none
  | c :: cs =>
    if 'A' ≤ c ∧ c ≤ 'G' then
      some (if cs.head? = some '#' then String.mk [c, '#'] else String.mk [c])
    else none

/-- App.js lines 26-37 (`transposeChord`).  `(currentIndex + amount + 12) % 12`
uses the JS `%`, i.e. the truncated remainder `Int.tmod`, whose result is
negative when `currentIndex + amount + 12 < 0`; `NOTES[negative]` is
`undefined` and the returned string then starts with "undefined". -/
def transposeChord (chordName : String) (amount : Int) : String :=
  match rootMatch chordName.data with
  | none => chordName
  | some root =>
    let quality := String.mk (chordName.data.drop root.length)
    let currentIndex := jsIndexOf root NOTES
    if currentIndex = -1 then chordName
    else
      let newIndex := (currentIndex + amount + 12).tmod 12
      jsNoteAt newIndex ++ quality

example : transposeChord "C" 1 = "C#" := by decide
example : transposeChord "Am" 2 = "Bm" := by decide
example : transposeChord "C" (-1) = "B" := by decide
example : transposeChord "C" (-13) = "undefined" := by decide
example : transposeChord "X7sus4" 5 = "X7sus4" := by decide
example : transposeChord "E#m" 3 = "E#m" := by decide
example : (getScaleChords "C" "major").map (fun c => c.name) =
    ["C", "Dm", "Em", "F", "G", "Am", "Bdim"] := by decide
example : (getScaleChords "A" "minor").map (fun c => c.name) =
    ["Am", "Bdim", "C", "Dm", "Em", "F", "G"] := by decide

/-- A chord placement `{ id, text, position }` (App.js line 234): a unique id,
the stamped chord text, and the horizontal pixel offset within the line. -/
structure Chord where
  id : Int
  text : String
  position : ℚ
deriving DecidableEq

/-- A line record `{ id, text, chords }` (App.js lines 256-262). -/
structure Line where
  id : Int
  text : String
  chords : List Chord
deriving DecidableEq

/-- JS `String.prototype.split('\n')` on the underlying characters: `[]` maps
to `[[]]`, and an empty trailing segment after a final newline is kept. -/
def splitNl : List Char → List (List Char)
  | [] => [[]]
  | c :: cs =>
    if c = '\n' then [] :: splitNl cs
    else
      match splitNl cs with
      | [] => [[c]]
      | h :: t => (c :: h) :: t

/-- JS `Array.prototype.join('\n')`. -/
def jsJoin : List String → String
  | [] => ""
  | [x] => x
  | x :: xs => x ++ "\n" ++ jsJoin xs

/-- App.js line 255: `lyrics.split('\n')`. -/
def jsSplitLines (s : String) : List String :=
  (splitNl s.data).map String.mk

/-- App.js lines 254-266 (`lockLyrics`): one line per newline-split segment;
segment `index` reuses the chords of the existing line whose id equals
`index`, else starts with no chords. -/
def lockLyrics (lyrics : String) (lines : List Line) : List Line :=
  (jsSplitLines lyrics).mapIdx (fun index text =>
    { id := (index : Int)
      text := text
      chords :=
        match lines.find? (fun l => l.id = (index : Int)) with
        | some existingLine => existingLine.chords
        | none => [] })

/-- App.js lines 268-272 (`unlockLyrics`): `lines.map(line => line.text).join('\n')`. -/
def unlockLyrics (lines : List Line) : String :=
  jsJoin (lines.map (fun l => l.text))

/-- App.js lines 238-243 (`handleChordClick`): on the line whose id is
`lineId`, drop the placements whose id is `chordId`; other lines unchanged. -/
def removePlacement (lines : List Line) (lineId chordId : Int) : List Line :=
  lines.map (fun line =>
    if line.id = lineId then
      { line with chords := line.chords.filter (fun c => c.id ≠ chordId) }
    else line)

/-- JS `Math.round`: round half toward positive infinity. -/
def jsRound (x : ℚ) : Int := Rat.floor (x + 1/2)

/-- App.js line 289: `Math.round(chord.position / charWidthRef.current)`.
When the measured character width is 0 the JS division produces a non-finite
value (`Infinity`/`NaN`) that cannot be rendered into the export text; this
is modelled as `none`. -/
def charIndexOf (cw position : ℚ) : Option Int :=
  if cw = 0 then none else some (jsRound (position / cw))

/-- `' '.repeat(spaces)` where `spaces` is a non-negative integer. -/
def spacesStr (n : Int) : String := String.mk (List.replicate n.toNat ' ')

/-- App.js line 286: `[...line.chords].sort((a, b) => a.position - b.position)`.
JS `Array.prototype.sort` is a stable sort by the comparator; it is modelled
as stable insertion: each element is inserted after all already-placed
elements whose position is less than or equal to its own. -/
def insertChord (c : Chord) : List Chord → List Chord
  | [] => [c]
  | d :: ds => if d.position ≤ c.position then d :: insertChord c ds else c :: d :: ds

/-- Stable sort of a line's placements by ascending pixel offset. -/
def sortChords (l : List Chord) : List Chord :=
  l.foldl (fun acc c => insertChord c acc) []

/-- App.js lines 287-293: the inner `forEach` of `flattenForExport`, with the
running `lastCharIndex` made explicit. -/
def flattenChords (cw : ℚ) (lastCharIndex : Int) : List Chord → Option String
  | [] => some ""
  | chord :: rest => do
    let charIndex ← charIndexOf cw chord.position
    let spaces := max 0 (charIndex - lastCharIndex)
    let tail ← flattenChords cw (charIndex + (chord.text.length : Int)) rest
    return spacesStr spaces ++ chord.text ++ tail

/-- One line of the export: the chord line built from the sorted placements,
a newline, the lyric text, a newline (App.js lines 285-295). -/
def flattenLine (cw : ℚ) (line : Line) : Option String := do
  let chordLineText ← flattenChords cw 0 (sortChords line.chords)
  return chordLineText ++ "\n" ++ line.text ++ "\n"

/-- App.js lines 282-298 (`flattenForExport`), with the measured character
width `charWidthRef.current` passed explicitly. -/
def flattenForExport (cw : ℚ) : List Line → Option String
  | [] => some ""
  | line :: rest => do
    let s ← flattenLine cw line
    let t ← flattenForExport cw rest
    return s ++ t

example : flattenLine 10 ⟨0, "Hello world", [⟨2, "C", 60⟩, ⟨1, "G", 0⟩]⟩ =
    some "G     C\nHello world\n" := by decide
example : flattenForExport 10 [⟨0, "la", [⟨1, "G", 5⟩]⟩] = some " G\nla\n" := by decide
example : flattenForExport 0 [⟨0, "la", [⟨1, "G", 5⟩]⟩] = none := by decide
example : unlockLyrics (lockLyrics "line1\nline2" []) = "line1\nline2" := by decide
example : unlockLyrics (lockLyrics "a\n\nb\n" []) = "a\n\nb\n" := by decide

/-- Joining character lines with a newline separator, the list-level mirror of
`jsJoin`. -/
def joinNl : List (List Char) → List Char
  | [] => []
  | [x] => x
  | x :: y :: t => x ++ '\n' :: joinNl (y :: t)

theorem splitNl_ne_nil (cs : List Char) : splitNl cs ≠ [] := by
  cases cs with
  | nil => simp [splitNl]
  | cons c cs =>
    simp only [splitNl]
    split
    · simp
    · split <;> simp

theorem joinNl_splitNl (cs : List Char) : joinNl (splitNl cs) = cs := by
  induction cs with
  | nil => rfl
  | cons c cs ih =>
    by_cases hc : c = '\n'
    · subst hc
      simp only [splitNl, if_pos rfl]
      rcases h : splitNl cs with _ | ⟨x, t⟩
      · exact absurd h (splitNl_ne_nil cs)
      · rw [h] at ih
        simpa [joinNl] using ih
    · simp only [splitNl, if_neg hc]
      rcases h : splitNl cs with _ | ⟨x, t⟩
      · exact absurd h (splitNl_ne_nil cs)
      · rw [h] at ih
        rcases t with _ | ⟨y, t2⟩
        · simpa [joinNl] using congrArg (c :: ·) ih
        · simpa [joinNl] using congrArg (c :: ·) ih

theorem string_eq_of_data {a b : String} (h : a.data = b.data) : a = b := by
  cases a
  cases b
  exact congrArg String.mk h

theorem jsJoin_map_mk (lls : List (List Char)) :
    (jsJoin (lls.map String.mk)).data = joinNl lls := by
  induction lls with
  | nil => rfl
  | cons x xs ih =>
    rcases xs with _ | ⟨y, t⟩
    · rfl
    · simp only [List.map_cons, jsJoin, joinNl, String.data_append] at ih ⊢
      rw [ih]
      simp

theorem map_text_mapIdx (g : ℕ → String → Line) (hg : ∀ i t, (g i t).text = t) :
    ∀ segs : List String, (segs.mapIdx g).map (fun l => l.text) = segs := by
  intro segs
  induction segs generalizing g with
  | nil => rfl
  | cons s ss ih =>
    rw [List.mapIdx_cons, List.map_cons, hg, ih (fun i => g (i + 1)) (fun i t => hg (i + 1) t)]

/-- C7: locking any lyrics blob into placement mode (newline split, empty
trailing segment kept) and unlocking without editing (newline join of the
line texts) reproduces the blob exactly, whatever lines existed before. -/
theorem lock_unlock_roundtrip (lyrics : String) (lines : List Line) :
    unlockLyrics (lockLyrics lyrics lines) = lyrics := by
  unfold unlockLyrics lockLyrics
  rw [map_text_mapIdx _ (fun i t => rfl)]
  apply string_eq_of_data
  unfold jsSplitLines
  rw [jsJoin_map_mk]
  exact joinNl_splitNl lyrics.data

/-- C9: removing a placement id that is absent from the targeted line is a
no-op that returns the line list unchanged; in general every line keeps its
id and text, placements with a different id survive on the targeted line,
nothing is added, every placement with the removed id disappears from the
targeted line, and lines with a different id are returned unchanged. -/
theorem removePlacement_spec (lines : List Line) (lineId chordId : Int) :
    ((∀ l ∈ lines, l.id = lineId → ∀ c ∈ l.chords, c.id ≠ chordId) →
      removePlacement lines lineId chordId = lines) ∧
    List.Forall₂ (fun l r =>
      r.id = l.id ∧ r.text = l.text ∧
      (∀ c ∈ l.chords, c.id ≠ chordId → c ∈ r.chords) ∧
      (∀ c ∈ r.chords, c ∈ l.chords) ∧
      (l.id = lineId → ∀ c ∈ r.chords, c.id ≠ chordId) ∧
      (l.id ≠ lineId → r = l)) lines (removePlacement lines lineId chordId) := by
  constructor
  · intro h
    unfold removePlacement
    have : ∀ l ∈ lines, (if l.id = lineId then
        { l with chords := l.chords.filter (fun c => c.id ≠ chordId) } else l) = l := by
      intro l hl
      by_cases hid : l.id = lineId
      · rw [if_pos hid]
        have hfil : l.chords.filter (fun c => c.id ≠ chordId) = l.chords :=
          List.filter_eq_self.mpr (fun c hc => by
            simpa using h l hl hid c hc)
        rw [hfil]
      · rw [if_neg hid]
    rw [List.map_congr_left this]
    simp
  · induction lines with
    | nil => exact List.Forall₂.nil
    | cons l ls ih =>
      refine List.Forall₂.cons ?_ ih
      by_cases hid : l.id = lineId
      · have hr : (fun line => if line.id = lineId then
            { line with chords := line.chords.filter (fun c => c.id ≠ chordId) } else line) l =
            { l with chords := l.chords.filter (fun c => c.id ≠ chordId) } := by
          simp [hid]
        rw [hr]
        exact ⟨rfl, rfl,
          fun c hc hcid => List.mem_filter.mpr ⟨hc, by simpa using hcid⟩,
          fun c hc => (List.mem_filter.mp hc).1,
          fun _ c hc => by simpa using (List.mem_filter.mp hc).2,
          fun h => absurd hid h⟩
      · have hr : (fun line => if line.id = lineId then
            { line with chords := line.chords.filter (fun c => c.id ≠ chordId) } else line) l =
            l := by
          simp [hid]
        rw [hr]
        exact ⟨rfl, rfl, fun c hc _ => hc, fun c hc => hc,
          fun h => absurd h hid, fun _ => rfl⟩

/-- Witness for C9: removing the absent placement id 99 leaves a concrete
document unchanged. -/
theorem removePlacement_spec_witness :
    removePlacement [⟨0, "hi", [⟨1, "G", 2⟩, ⟨2, "C", 5⟩]⟩, ⟨1, "yo", [⟨3, "D", 0⟩]⟩] 0 99 =
      [⟨0, "hi", [⟨1, "G", 2⟩, ⟨2, "C", 5⟩]⟩, ⟨1, "yo", [⟨3, "D", 0⟩]⟩] :=
  (removePlacement_spec [⟨0, "hi", [⟨1, "G", 2⟩, ⟨2, "C", 5⟩]⟩, ⟨1, "yo", [⟨3, "D", 0⟩]⟩] 0 99).1
    (by decide)

theorem insertChord_perm (c : Chord) (l : List Chord) : (insertChord c l).Perm (c :: l) := by
  induction l with
  | nil => exact List.Perm.refl _
  | cons d ds ih =>
    unfold insertChord
    by_cases h : d.position ≤ c.position
    · rw [if_pos h]
      exact (ih.cons d).trans (List.Perm.swap c d ds)
    · rw [if_neg h]

theorem sortChords_aux_perm (l : List Chord) :
    ∀ acc : List Chord, (l.foldl (fun acc c => insertChord c acc) acc).Perm (acc ++ l) := by
  induction l with
  | nil => intro acc; simp
  | cons c cs ih =>
    intro acc
    show (cs.foldl (fun acc c => insertChord c acc) (insertChord c acc)).Perm (acc ++ c :: cs)
    exact (ih (insertChord c acc)).trans
      (((insertChord_perm c acc).append_right cs).trans List.perm_middle.symm)

theorem sortChords_perm (l : List Chord) : (sortChords l).Perm l := by
  simpa using sortChords_aux_perm l []

theorem insertChord_sorted {l : List Chord}
    (hl : l.Pairwise (fun a b => a.position ≤ b.position)) (c : Chord) :
    (insertChord c l).Pairwise (fun a b => a.position ≤ b.position) := by
  induction l with
  | nil => simp [insertChord]
  | cons d ds ih =>
    rcases List.pairwise_cons.mp hl with ⟨hd, hds⟩
    unfold insertChord
    by_cases h : d.position ≤ c.position
    · rw [if_pos h]
      refine List.pairwise_cons.mpr ⟨?_, ih hds⟩
      intro a ha
      rcases List.mem_cons.mp ((insertChord_perm c ds).mem_iff.mp ha) with rfl | ha2
      · exact h
      · exact hd a ha2
    · rw [if_neg h]
      have hcd : c.position ≤ d.position := le_of_not_le h
      refine List.pairwise_cons.mpr ⟨?_, hl⟩
      intro a ha
      rcases List.mem_cons.mp ha with ha | ha
      · exact ha ▸ hcd
      · exact le_trans hcd (hd a ha)

theorem sortChords_sorted (l : List Chord) :
    (sortChords l).Pairwise (fun a b => a.position ≤ b.position) := by
  suffices h : ∀ (l acc : List Chord), acc.Pairwise (fun a b => a.position ≤ b.position) →
      (l.foldl (fun acc c => insertChord c acc) acc).Pairwise
        (fun a b => a.position ≤ b.position) from h l [] (by simp)
  intro l
  induction l with
  | nil => intro acc h; exact h
  | cons c cs ih => intro acc h; exact ih _ (insertChord_sorted h c)

/-- A stable sort of placements with pairwise-distinct offsets is determined
by the multiset of placements alone. -/
theorem sortChords_eq_of_perm {l₁ l₂ : List Chord} (hperm : l₁.Perm l₂)
    (hnodup : (l₁.map (fun c => c.position)).Nodup) : sortChords l₁ = sortChords l₂ := by
  have p1 := sortChords_perm l₁
  have p2 := sortChords_perm l₂
  have hp : (sortChords l₁).Perm (sortChords l₂) := p1.trans (hperm.trans p2.symm)
  have hn1 : ((sortChords l₁).map (fun c => c.position)).Nodup :=
    ((p1.map (fun c => c.position)).symm).nodup hnodup
  have hn2 : ((sortChords l₂).map (fun c => c.position)).Nodup :=
    ((p2.map (fun c => c.position)).symm).nodup
      (((hperm.map (fun c => c.position))).nodup hnodup)
  have hlt1 : (sortChords l₁).Pairwise (fun a b => a.position < b.position) :=
    ((sortChords_sorted l₁).and (List.pairwise_map.mp hn1)).imp
      (fun h => lt_of_le_of_ne h.1 h.2)
  have hlt2 : (sortChords l₂).Pairwise (fun a b => a.position < b.position) :=
    ((sortChords_sorted l₂).and (List.pairwise_map.mp hn2)).imp
      (fun h => lt_of_le_of_ne h.1 h.2)
  haveI : IsAntisymm Chord (fun a b => a.position < b.position) :=
    ⟨fun a b h1 h2 => absurd h2 (lt_asymm h1)⟩
  exact List.eq_of_perm_of_sorted hp hlt1 hlt2

/-- C8 (amended): for placements with pairwise-distinct pixel offsets, the
export of a line is invariant under any permutation of the placement
insertion order.  (With tied offsets the stable sort keeps insertion order,
so shuffling tied placements reorders them in the output.) -/
theorem flattenLine_perm_invariant (cw : ℚ) (id0 : Int) (text0 : String)
    (chords₁ chords₂ : List Chord) (hperm : chords₁.Perm chords₂)
    (hnodup : (chords₁.map (fun c => c.position)).Nodup) :
    flattenLine cw ⟨id0, text0, chords₁⟩ = flattenLine cw ⟨id0, text0, chords₂⟩ := by
  unfold flattenLine
  rw [show sortChords (Line.mk id0 text0 chords₁).chords =
      sortChords (Line.mk id0 text0 chords₂).chords from
    sortChords_eq_of_perm hperm hnodup]

/-- Witness for C8: permuting two placements with distinct offsets leaves a
concrete line's export unchanged. -/
theorem flattenLine_perm_invariant_witness :
    flattenLine 10 ⟨0, "la", [⟨1, "G", 0⟩, ⟨2, "C", 30⟩]⟩ =
      flattenLine 10 ⟨0, "la", [⟨2, "C", 30⟩, ⟨1, "G", 0⟩]⟩ :=
  flattenLine_perm_invariant 10 0 "la" [⟨1, "G", 0⟩, ⟨2, "C", 30⟩] [⟨2, "C", 30⟩, ⟨1, "G", 0⟩]
    (List.Perm.swap (⟨2, "C", 30⟩ : Chord) ⟨1, "G", 0⟩ []) (by decide)

/-- Counterexample to C8 as stated: two placements at the same pixel offset.
Shuffling the insertion order is a permutation of the placement list, yet the
stable sort keeps the shuffled order for the tied offsets and the exported
chord line changes from "GC" to "CG". -/
theorem flattenLine_perm_counterexample :
    ([⟨1, "G", 0⟩, ⟨2, "C", 0⟩] : List Chord).Perm [⟨2, "C", 0⟩, ⟨1, "G", 0⟩] ∧
      flattenLine 10 ⟨0, "la", [⟨1, "G", 0⟩, ⟨2, "C", 0⟩]⟩ ≠
        flattenLine 10 ⟨0, "la", [⟨2, "C", 0⟩, ⟨1, "G", 0⟩]⟩ :=
  ⟨List.Perm.swap (⟨2, "C", 0⟩ : Chord) ⟨1, "G", 0⟩ [], by decide⟩

/-- The chord-line walk exactly as the specification states it (C1): the
cursor advances BY `padding + length(chordText)` from its previous value,
also when the target column lies before the cursor. -/
def flattenChordsClaim (cw : ℚ) (cursorColumn : Int) : List Chord → Option String
  | [] => some ""
  | chord :: rest => do
    let targetColumn ← charIndexOf cw chord.position
    let padding := max 0 (targetColumn - cursorColumn)
    let tail ← flattenChordsClaim cw (cursorColumn + padding + (chord.text.length : Int)) rest
    return spacesStr padding ++ chord.text ++ tail

/-- One exported line under the claimed walk of C1. -/
def flattenLineClaim (cw : ℚ) (line : Line) : Option String := do
  let chordLineText ← flattenChordsClaim cw 0 (sortChords line.chords)
  return chordLineText ++ "\n" ++ line.text ++ "\n"

/-- Counterexample to C1 as stated: with character width 10 and sorted
placements Gmaj7@0px, C@20px, D@50px, the code's walk resets the cursor to
`targetColumn + length` at the overlapping chord C (cursor 5 → 3), so D later
receives 2 spaces of padding ("Gmaj7C  D"), while the claimed walk keeps the
cursor at 6 after C and renders D adjacent ("Gmaj7CD"). -/
theorem flattenLine_claim_counterexample :
    flattenLine 10 ⟨0, "overlap", [⟨1, "Gmaj7", 0⟩, ⟨2, "C", 20⟩, ⟨3, "D", 50⟩]⟩ =
        some "Gmaj7C  D\noverlap\n" ∧
      flattenLineClaim 10 ⟨0, "overlap", [⟨1, "Gmaj7", 0⟩, ⟨2, "C", 20⟩, ⟨3, "D", 50⟩]⟩ =
        some "Gmaj7CD\noverlap\n" ∧
      flattenLine 10 ⟨0, "overlap", [⟨1, "Gmaj7", 0⟩, ⟨2, "C", 20⟩, ⟨3, "D", 50⟩]⟩ ≠
        flattenLineClaim 10 ⟨0, "overlap", [⟨1, "Gmaj7", 0⟩, ⟨2, "C", 20⟩, ⟨3, "D", 50⟩]⟩ := by
  refine ⟨by decide, by decide, by decide⟩

/-- The amended walk of C1: padding is `targetColumn - cursorColumn` when the
target is at or after the cursor and the cursor advances by
`padding + length`; when the target lies strictly before the cursor the chord
is appended with no padding and the cursor is RESET to
`targetColumn + length` (it can move backwards). -/
def flattenChordsAmended (cw : ℚ) (cursorColumn : Int) : List Chord → Option String
  | [] => some ""
  | chord :: rest => do
    let targetColumn ← charIndexOf cw chord.position
    if cursorColumn ≤ targetColumn then
      let padding := targetColumn - cursorColumn
      let tail ← flattenChordsAmended cw (cursorColumn + padding + (chord.text.length : Int)) rest
      return spacesStr padding ++ chord.text ++ tail
    else
      let tail ← flattenChordsAmended cw (targetColumn + (chord.text.length : Int)) rest
      return chord.text ++ tail

/-- One exported line under the amended walk. -/
def flattenLineAmended (cw : ℚ) (line : Line) : Option String := do
  let chordLineText ← flattenChordsAmended cw 0 (sortChords line.chords)
  return chordLineText ++ "\n" ++ line.text ++ "\n"

theorem empty_string_append (s : String) : "" ++ s = s :=
  string_eq_of_data (by rw [String.data_append]; rfl)

theorem spacesStr_zero_append (s : String) : spacesStr 0 ++ s = s :=
  empty_string_append s

theorem flattenChords_eq_amended (cw : ℚ) (l : List Chord) :
    ∀ cursorColumn : Int, flattenChords cw cursorColumn l = flattenChordsAmended cw cursorColumn l := by
  induction l with
  | nil => intro cur; rfl
  | cons chord rest ih =>
    intro cur
    unfold flattenChords flattenChordsAmended
    cases hcw : charIndexOf cw chord.position with
    | none => rfl
    | some target =>
      simp only [Option.pure_def, Option.bind_eq_bind, Option.some_bind]
      by_cases hc : cur ≤ target
      · rw [if_pos hc, max_eq_right (by omega : (0:Int) ≤ target - cur),
          show cur + (target - cur) + (chord.text.length : Int) =
            target + (chord.text.length : Int) from by omega, ih]
      · rw [if_neg hc, max_eq_left (by omega : target - cur ≤ (0:Int)), ih]
        simp only [spacesStr_zero_append]

/-- C1 (amended): for every line the export equals the walk over the sorted
placements that appends `max 0 (targetColumn - cursorColumn)` spaces and the
chord text, then RESETS the cursor to `targetColumn + length(chordText)`:
equivalently, it advances by `padding + length` only when
`cursorColumn ≤ targetColumn`, and on overlap it moves the cursor back to
`targetColumn + length` instead of advancing it by the text's length. -/
theorem flattenLine_eq_amended (cw : ℚ) (line : Line) :
    flattenLine cw line = flattenLineAmended cw line := by
  unfold flattenLine flattenLineAmended
  rw [flattenChords_eq_amended]

theorem flattenChords_none_iff (cw : ℚ) (l : List Chord) :
    ∀ cur : Int, (flattenChords cw cur l = none ↔ (cw = 0 ∧ l ≠ [])) := by
  induction l with
  | nil => intro cur; simp [flattenChords]
  | cons chord rest ih =>
    intro cur
    by_cases hcw : cw = 0
    · simp [flattenChords, charIndexOf, hcw]
    · simp only [flattenChords, charIndexOf, hcw, if_neg hcw, Option.pure_def,
        Option.bind_eq_bind, Option.some_bind]
      cases h : flattenChords cw (jsRound (chord.position / cw) + (chord.text.length : Int)) rest with
      | none => exact absurd ((ih _).mp h) (by simp [hcw])
      | some str => simp [h, hcw]

theorem flattenLine_none_iff (cw : ℚ) (line : Line) :
    flattenLine cw line = none ↔ (cw = 0 ∧ line.chords ≠ []) := by
  unfold flattenLine
  have hsort : sortChords line.chords = [] ↔ line.chords = [] := by
    constructor
    · intro h
      have hp := sortChords_perm line.chords
      rw [h] at hp
      exact List.Perm.eq_nil hp.symm
    · intro h
      rw [h]
      rfl
  rw [show (do
      let chordLineText ← flattenChords cw 0 (sortChords line.chords)
      return chordLineText ++ "\n" ++ line.text ++ "\n" : Option String) = none ↔
        flattenChords cw 0 (sortChords line.chords) = none from by
    cases h : flattenChords cw 0 (sortChords line.chords) <;> simp [h]]
  rw [flattenChords_none_iff]
  exact ⟨fun h => ⟨h.1, fun he => h.2 (hsort.mpr he)⟩,
    fun h => ⟨h.1, fun he => h.2 (hsort.mp he)⟩⟩

/-- C3 (amended): no fallback width is ever substituted — the export divides
by the injected character width as-is, so the export is undefined exactly
when that width is 0 and at least one placement exists; with a nonzero width
no division by zero occurs and the export always produces a string. -/
theorem flattenForExport_none_iff (cw : ℚ) (lines : List Line) :
    flattenForExport cw lines = none ↔ (cw = 0 ∧ ∃ l ∈ lines, l.chords ≠ []) := by
  induction lines with
  | nil => simp [flattenForExport]
  | cons line rest ih =>
    constructor
    · intro h
      unfold flattenForExport at h
      cases h1 : flattenLine cw line with
      | none =>
        rcases (flattenLine_none_iff cw line).mp h1 with ⟨hcw, hc⟩
        exact ⟨hcw, line, List.mem_cons_self line rest, hc⟩
      | some s =>
        rw [h1] at h
        cases h2 : flattenForExport cw rest with
        | none =>
          rcases ih.mp h2 with ⟨hcw, l, hl, hc⟩
          exact ⟨hcw, l, List.mem_cons_of_mem line hl, hc⟩
        | some t =>
          rw [h2] at h
          simp at h
    · rintro ⟨hcw, l, hl, hc⟩
      unfold flattenForExport
      rcases List.mem_cons.mp hl with rfl | hl2
      · rw [(flattenLine_none_iff cw l).mpr ⟨hcw, hc⟩]
        rfl
      · cases h1 : flattenLine cw line with
        | none => rfl
        | some s =>
          rw [ih.mpr ⟨hcw, l, hl2, hc⟩]
          rfl

/-- Counterexample to C3 as stated: the measured width starts at 0
(`charWidthRef = useRef(0)`, App.js line 147) and `flattenForExport` divides
by it with no positive fallback, so exporting a single placement with width 0
performs the division by zero and yields no export text. -/
theorem flattenForExport_divzero_counterexample :
    flattenForExport 0 [⟨0, "Hello", [⟨1, "G", 60⟩]⟩] = none ∧
      charIndexOf 0 60 = none := by
  refine ⟨by decide, by decide⟩

/-- The pixel-to-column conversion exactly as the specification states it
(C6): the rounded column clamped to be non-negative. -/
def pixelToColumnClaim (cw offsetPixels : ℚ) : Int :=
  max 0 (jsRound (offsetPixels / cw))

/-- Counterexample to C6 as stated: the code never clamps the rounded column.
With character width 10 and offset -20 the computed column is -2, which is
negative and differs from the claimed clamped value 0. -/
theorem charIndex_clamp_counterexample :
    charIndexOf 10 (-20) = some (-2) ∧
      ¬(0 : Int) ≤ -2 ∧
      pixelToColumnClaim 10 (-20) = 0 ∧
      charIndexOf 10 (-20) ≠ some (pixelToColumnClaim 10 (-20)) := by
  refine ⟨by decide, by decide, by decide, by decide⟩

/-- C6 (amended): the column is `round(offsetPixels / charWidth)` with no
clamping; it is non-negative whenever the offset is non-negative and the
character width is positive (negative offsets can produce negative columns). -/
theorem charIndex_nonneg (cw p : ℚ) (hcw : 0 < cw) (hp : 0 ≤ p) :
    charIndexOf cw p = some (jsRound (p / cw)) ∧ 0 ≤ jsRound (p / cw) := by
  constructor
  · unfold charIndexOf
    rw [if_neg (ne_of_gt hcw)]
  · unfold jsRound
    have hdiv : (0 : ℚ) ≤ p / cw := div_nonneg hp hcw.le
    have : ((0 : Int) : ℚ) ≤ p / cw + 1 / 2 := by
      push_cast
      linarith
    exact Rat.le_floor.mpr this

/-- Witness for C6: width 10, offset 60 gives the unclamped column 6 ≥ 0. -/
theorem charIndex_nonneg_witness :
    charIndexOf 10 60 = some (jsRound ((60 : ℚ) / 10)) ∧ 0 ≤ jsRound ((60 : ℚ) / 10) :=
  charIndex_nonneg 10 60 (by decide) (by decide)

theorem jsIndexOf_spec (x : String) :
    ∀ l : List String,
      jsIndexOf x l = -1 ∨
        (0 ≤ jsIndexOf x l ∧ jsIndexOf x l < (l.length : Int) ∧
          l.getD (jsIndexOf x l).toNat "undefined" = x) := by
  intro l
  induction l with
  | nil => left; rfl
  | cons y ys ih =>
    by_cases hy : y = x
    · right
      refine ⟨?_, ?_, ?_⟩ <;> simp [jsIndexOf, hy]
    · rcases ih with h | ⟨h0, hlen, hget⟩
      · left
        simp only [jsIndexOf, if_neg hy]
        rw [if_pos h]
      · right
        have hr : jsIndexOf x ys ≠ -1 := by omega
        simp only [jsIndexOf, if_neg hy]
        rw [if_neg hr]
        refine ⟨by omega, by simp; omega, ?_⟩
        have ht : (jsIndexOf x ys + 1).toNat = (jsIndexOf x ys).toNat + 1 := by omega
        rw [ht]
        simpa using hget

theorem rootMatch_prefix {d : List Char} {root : String} (h : rootMatch d = some root) :
    root.data ++ d.drop root.length = d := by
  cases d with
  | nil => simp [rootMatch] at h
  | cons c cs =>
    simp only [rootMatch] at h
    by_cases hceq : 'A' ≤ c ∧ c ≤ 'G'
    · rw [if_pos hceq] at h
      have hroot := Option.some_injective _ h
      by_cases hh : cs.head? = some '#'
      · rw [if_pos hh] at hroot
        subst hroot
        rcases cs with _ | ⟨c2, cs2⟩
        · simp at hh
        · have : c2 = '#' := by simpa using hh
          subst this
          rfl
      · rw [if_neg hh] at hroot
        subst hroot
        rfl
    · rw [if_neg hceq] at h
      simp at h

theorem tmod_cycle_eq {i k : Int} (hi : 0 ≤ i) (hk : -12 ≤ k) :
    (i + k + 12).tmod 12 = (i + k % 12 + 12).tmod 12 := by
  have h2 : (0 : Int) ≤ k % 12 := Int.emod_nonneg k (by norm_num)
  rw [Int.tmod_eq_emod (by omega) (by norm_num), Int.tmod_eq_emod (by omega) (by norm_num)]
  omega

/-- C2 (amended): for every chord name and every semitone offset at least
-12, the transposition equals transposing by the mathematical residue
`k % 12 ∈ [0, 11]`, and transposing any name by 12 is the identity.  (For
offsets below -12 the JS truncated remainder goes negative and the root is
replaced by the string "undefined".) -/
theorem transposeChord_mod_cycle (name : String) (k : Int) (hk : -12 ≤ k) :
    transposeChord name k = transposeChord name (k % 12) ∧
      transposeChord name 12 = name := by
  constructor
  · unfold transposeChord
    cases hm : rootMatch name.data with
    | none => rfl
    | some root =>
      dsimp only
      rcases jsIndexOf_spec root NOTES with hidx | ⟨h0, hlen, hget⟩
      · rw [if_pos hidx, if_pos hidx]
      · have hne : jsIndexOf root NOTES ≠ -1 := by omega
        rw [if_neg hne, if_neg hne, tmod_cycle_eq h0 hk]
  · unfold transposeChord
    cases hm : rootMatch name.data with
    | none => rfl
    | some root =>
      dsimp only
      rcases jsIndexOf_spec root NOTES with hidx | ⟨h0, hlen, hget⟩
      · rw [if_pos hidx]
      · have hne : jsIndexOf root NOTES ≠ -1 := by omega
        rw [if_neg hne]
        have hlen12 : jsIndexOf root NOTES < 12 := by simpa using hlen
        have htm : (jsIndexOf root NOTES + 12 + 12).tmod 12 = jsIndexOf root NOTES := by
          rw [Int.tmod_eq_emod (by omega) (by norm_num)]
          omega
        rw [htm]
        have hnote : jsNoteAt (jsIndexOf root NOTES) = root := by
          unfold jsNoteAt
          rw [if_pos ⟨h0, hlen12⟩]
          exact hget
        rw [hnote]
        apply string_eq_of_data
        rw [String.data_append]
        exact rootMatch_prefix hm

/-- Witness for C2: transposing "C" by -1 equals transposing by 11, and
transposing "C" by 12 is the identity. -/
theorem transposeChord_mod_cycle_witness :
    transposeChord "C" (-1) = transposeChord "C" ((-1) % 12) ∧
      transposeChord "C" 12 = "C" :=
  transposeChord_mod_cycle "C" (-1) (by decide)

/-- Counterexample to C2 as stated: at offset -13 the JS remainder is
negative, the root lookup yields `undefined`, and the result differs from
transposing by the true residue `(-13) % 12 = 11`. -/
theorem transposeChord_mod_cycle_counterexample :
    transposeChord "C" (-13) = "undefined" ∧
      transposeChord "C" ((-13) % 12) = "B" ∧
      transposeChord "C" (-13) ≠ transposeChord "C" ((-13) % 12) := by
  refine ⟨by decide, by decide, by decide⟩

set_option maxRecDepth 4000 in
theorem transposeChord_roundtrip_bounded :
    ∀ i ∈ List.range 12, ∀ q ∈ ["", "m", "dim"], ∀ j ∈ List.range 25,
      transposeChord (transposeChord (NOTES.getD i "" ++ q) ((j : Int) - 12)) (-((j : Int) - 12)) =
        NOTES.getD i "" ++ q := by decide

/-- C4 (amended): for every chord of the data model (a canonical root
spelling plus quality suffix "", "m" or "dim") and every offset k with
|k| ≤ 12, transposing by k and then by -k returns the original name.  (For
larger offsets one of the two JS remainders can go negative and the root
degenerates to "undefined".) -/
theorem transposeChord_roundtrip (i : Nat) (hi : i < 12) (q : String)
    (hq : q = "" ∨ q = "m" ∨ q = "dim") (k : Int) (hk1 : -12 ≤ k) (hk2 : k ≤ 12) :
    transposeChord (transposeChord (NOTES.getD i "" ++ q) k) (-k) = NOTES.getD i "" ++ q := by
  have hj : ((k + 12).toNat : Int) - 12 = k := by omega
  have hmem : (k + 12).toNat ∈ List.range 25 := List.mem_range.mpr (by omega)
  have hq2 : q ∈ ["", "m", "dim"] := by rcases hq with h | h | h <;> simp [h]
  have hb := transposeChord_roundtrip_bounded i (List.mem_range.mpr hi) q hq2
    ((k + 12).toNat) hmem
  rwa [hj] at hb

/-- Witness for C4: the round trip at root C, empty quality, offset 5. -/
theorem transposeChord_roundtrip_witness :
    transposeChord (transposeChord (NOTES.getD 0 "" ++ "") 5) (-5) = NOTES.getD 0 "" ++ "" :=
  transposeChord_roundtrip 0 (by decide) "" (Or.inl rfl) 5 (by decide) (by decide)

/-- Counterexample to C4 as stated: "C#" transposed by 26 is "D#", but
transposing "D#" by -26 hits a negative JS remainder and returns
"undefined", not "C#". -/
theorem transposeChord_roundtrip_counterexample :
    transposeChord "C#" 26 = "D#" ∧
      transposeChord (transposeChord "C#" 26) (-26) = "undefined" ∧
      transposeChord (transposeChord "C#" 26) (-26) ≠ "C#" := by
  refine ⟨by decide, by decide, by decide⟩

/-- The diatonic chord names exactly as the specification states them (C5):
fixed interval and quality tables, root index `(rootIdx + interval[i]) mod 12`
with the mathematical modulo, suffixes "" / "m" / "dim". -/
def diatonicSpecNames (rootIdx : Nat) (scaleType : String) : List String :=
  let intervalTable : List Nat :=
    if scaleType = "major" then [0, 2, 4, 5, 7, 9, 11] else [0, 2, 3, 5, 7, 8, 10]
  let suffixTable : List String :=
    if scaleType = "major" then ["", "m", "m", "", "", "m", "dim"]
    else ["m", "dim", "", "m", "m", "", ""]
  List.zipWith (fun n suf => NOTES.getD ((rootIdx + n) % 12) "" ++ suf)
    intervalTable suffixTable

set_option maxRecDepth 4000 in
theorem getScaleChords_spec_bounded :
    ∀ i ∈ List.range 12, ∀ st ∈ ["major", "minor"],
      (getScaleChords (NOTES.getD i "") st).length = 7 ∧
        (getScaleChords (NOTES.getD i "") st).map (fun c => c.name) = diatonicSpecNames i st ∧
        rootMatch ((getScaleChords (NOTES.getD i "") st).headD ⟨"", ""⟩).name.data =
          some (NOTES.getD i "") := by decide

/-- C5: for every root among the 12 notes and scale type major/minor,
`getScaleChords` returns exactly 7 chords whose names follow the fixed
interval/quality tables with root indices `(rootIdx + interval[i]) mod 12`,
the first chord's root (the leading root token of its name) is the scale
root, and the C major scale yields exactly [C, Dm, Em, F, G, Am, Bdim]. -/
theorem getScaleChords_spec (i : Nat) (hi : i < 12) (st : String)
    (hst : st = "major" ∨ st = "minor") :
    (getScaleChords (NOTES.getD i "") st).length = 7 ∧
      (getScaleChords (NOTES.getD i "") st).map (fun c => c.name) = diatonicSpecNames i st ∧
      rootMatch ((getScaleChords (NOTES.getD i "") st).headD ⟨"", ""⟩).name.data =
        some (NOTES.getD i "") ∧
      (getScaleChords "C" "major").map (fun c => c.name) =
        ["C", "Dm", "Em", "F", "G", "Am", "Bdim"] := by
  have hst2 : st ∈ ["major", "minor"] := by rcases hst with h | h <;> simp [h]
  have h := getScaleChords_spec_bounded i (List.mem_range.mpr hi) st hst2
  exact ⟨h.1, h.2.1, h.2.2, by decide⟩

/-- Witness for C5: the C major scale. -/
theorem getScaleChords_spec_witness :
    (getScaleChords (NOTES.getD 0 "") "major").length = 7 ∧
      (getScaleChords (NOTES.getD 0 "") "major").map (fun c => c.name) =
        diatonicSpecNames 0 "major" ∧
      rootMatch ((getScaleChords (NOTES.getD 0 "") "major").headD ⟨"", ""⟩).name.data =
        some (NOTES.getD 0 "") ∧
      (getScaleChords "C" "major").map (fun c => c.name) =
        ["C", "Dm", "Em", "F", "G", "Am", "Bdim"] :=
  getScaleChords_spec 0 (by decide) "major" (Or.inl rfl)

theorem rootMatch_sharp (c : Char) (t : List Char) (h1 : 'A' ≤ c) (h2 : c ≤ 'G') :
    rootMatch (c :: '#' :: t) = some (String.mk [c, '#']) := by
  show (if 'A' ≤ c ∧ c ≤ 'G' then
      some (if ('#' :: t).head? = some '#' then String.mk [c, '#'] else String.mk [c])
    else none) = some (String.mk [c, '#'])
  rw [if_pos ⟨h1, h2⟩]
  simp

/-- C10: a chord name whose leading root token is "E#" or "B#" matches the
root regex but is not one of the 12 canonical sharp spellings, so
`transposeChord` returns the input unchanged for every offset. -/
theorem transposeChord_invalid_sharp_root (s : String) (k : Int) :
    transposeChord ("E#" ++ s) k = "E#" ++ s ∧
      transposeChord ("B#" ++ s) k = "B#" ++ s := by
  constructor
  · unfold transposeChord
    rw [show ("E#" ++ s).data = 'E' :: '#' :: s.data from by rw [String.data_append]; rfl,
      rootMatch_sharp 'E' s.data (by decide) (by decide)]
    dsimp only
    rw [if_pos (show jsIndexOf (String.mk ['E', '#']) NOTES = -1 from by decide)]
  · unfold transposeChord
    rw [show ("B#" ++ s).data = 'B' :: '#' :: s.data from by rw [String.data_append]; rfl,
      rootMatch_sharp 'B' s.data (by decide) (by decide)]
    dsimp only
    rw [if_pos (show jsIndexOf (String.mk ['B', '#']) NOTES = -1 from by decide)]
